import Mathlib

/-!
Shallow embedding of the `spscqueue` Go package (file `spscqueue.go`, the
version with the Reserve/Commit producer API) and proofs about it.

The queue is a bounded single-producer single-consumer ring buffer backed by
`capacity + 1` slots.  Index fields are Go `uint64` values; we model them as
`Nat` with an explicit modulus `U64 = 2^64` wherever Go's wrapping arithmetic
matters.  The operations are translated method by method.  All theorems below
concern sequential (interleaved, one-at-a-time) executions of the operations:
an operation's spin loop, whose condition cannot change while no other
operation runs, is modelled by the `block` outcome, and an out-of-bounds Go
slice access (a runtime panic) is modelled by the `panic` outcome.
-/

set_option linter.unusedVariables false

namespace Spscqueue

/-- Modulus of Go's 64-bit unsigned arithmetic, 2 to the power 64.  On the
reference platform (`linux/amd64`) both `uint` and `uint64` have this width. -/
def U64 : Nat := 18446744073709551616

/-- Result of one sequential operation: a normal result, a runtime panic
(out-of-bounds slice access), or divergence (`Push`/`Pop` spin forever when
their wait condition holds, since no peer runs while they spin). -/
inductive Outcome (α : Type) where
  | ok : α → Outcome α
  | panic : Outcome α
  | block : Outcome α
deriving DecidableEq

/-- The `Queue[T]` struct.  The `cpu.CacheLinePad` padding fields carry no
data and are omitted; the remaining fields appear in source order. -/
structure Queue (T : Type) where
  items : List T
  rIdx : Nat
  wIdxCached : Nat
  wIdx : Nat
  rIdxCached : Nat
deriving DecidableEq

variable {T : Type}

/-- Go slice read `l[i]`: `none` models the bounds-check panic. -/
def getItem (l : List T) (i : Nat) : Option T :=
  if h : i < l.length then some (l.get ⟨i, h⟩) else none

/-- Go slice write `l[i] = v`: `none` models the bounds-check panic. -/
def setItem (l : List T) (i : Nat) (v : T) : Option (List T) :=
  if i < l.length then some (l.set i v) else none

/-- The index-advance computation shared by `Push`, `Offer`, `Reserve`,
`Commit` and `Advance`: `next := i + 1` in `uint64` arithmetic, then
`if next == uint64(len(q.items)) { next = 0 }`. -/
def wrapNext (i n : Nat) : Nat :=
  if (i + 1) % U64 = n then 0 else (i + 1) % U64

/-- `New[T](size uint)` returns `&Queue[T]{items: make([]T, size+1)}`.
The `size + 1` is computed in `uint` arithmetic, hence the modulus; `make`
zero-fills the slice (`default` is the Go zero value of `T`). -/
def New (T : Type) [Inhabited T] (size : Nat) : Queue T :=
  { items := List.replicate ((size + 1) % U64) default
    rIdx := 0
    wIdxCached := 0
    wIdx := 0
    rIdxCached := 0 }

/-- `Push(el)`.  Computes `wIdxNext`; if it hits the cached read index the
cache is refreshed from `rIdx`, and if the refreshed value still blocks, the
Go code spins (`block` here).  Otherwise the element is written at `wIdx`
and `wIdxNext` is published. -/
def Push (q : Queue T) (el : T) : Outcome (Queue T) :=
  if wrapNext q.wIdx q.items.length = q.rIdxCached then
    if wrapNext q.wIdx q.items.length = q.rIdx then
      Outcome.block
    else
      match setItem q.items q.wIdx el with
      | none => Outcome.panic
      | some l =>
          Outcome.ok { q with rIdxCached := q.rIdx, items := l,
                              wIdx := wrapNext q.wIdx q.items.length }
  else
    match setItem q.items q.wIdx el with
    | none => Outcome.panic
    | some l => Outcome.ok { q with items := l, wIdx := wrapNext q.wIdx q.items.length }

/-- `Offer(el)`.  Same slack check as `Push`, but returns `false` instead of
spinning; on the failure path the refreshed cache value it stores is forced
equal to the old one by the two guards. -/
def Offer (q : Queue T) (el : T) : Outcome (Bool × Queue T) :=
  if wrapNext q.wIdx q.items.length = q.rIdxCached then
    if wrapNext q.wIdx q.items.length = q.rIdx then
      Outcome.ok (false, { q with rIdxCached := q.rIdx })
    else
      match setItem q.items q.wIdx el with
      | none => Outcome.panic
      | some l =>
          Outcome.ok (true, { q with rIdxCached := q.rIdx, items := l,
                                     wIdx := wrapNext q.wIdx q.items.length })
  else
    match setItem q.items q.wIdx el with
    | none => Outcome.panic
    | some l => Outcome.ok (true, { q with items := l, wIdx := wrapNext q.wIdx q.items.length })

/-- `Reserve()`.  Same slack check as `Offer`; on success it returns the
element at the current write index without advancing anything. -/
def Reserve [Inhabited T] (q : Queue T) : Outcome ((T × Bool) × Queue T) :=
  if wrapNext q.wIdx q.items.length = q.rIdxCached then
    if wrapNext q.wIdx q.items.length = q.rIdx then
      Outcome.ok ((default, false), { q with rIdxCached := q.rIdx })
    else
      match getItem q.items q.wIdx with
      | none => Outcome.panic
      | some v => Outcome.ok ((v, true), { q with rIdxCached := q.rIdx })
  else
    match getItem q.items q.wIdx with
    | none => Outcome.panic
    | some v => Outcome.ok ((v, true), q)

/-- `Commit()`: advance and publish the write index, with no check. -/
def Commit (q : Queue T) : Queue T :=
  { q with wIdx := wrapNext q.wIdx q.items.length }

/-- `Advance()`: advance and publish the read index, with no check. -/
def Advance (q : Queue T) : Queue T :=
  { q with rIdx := wrapNext q.rIdx q.items.length }

/-- `Pop()`.  Snapshots `rIdx`, waits (spins) while the queue looks empty
after refreshing `wIdxCached`, reads the element at `rIdx`, and the deferred
`Advance` publishes the new read index. -/
def Pop (q : Queue T) : Outcome (T × Queue T) :=
  if q.rIdx = q.wIdxCached then
    if q.rIdx = q.wIdx then
      Outcome.block
    else
      match getItem q.items q.rIdx with
      | none => Outcome.panic
      | some v => Outcome.ok (v, Advance { q with wIdxCached := q.wIdx })
  else
    match getItem q.items q.rIdx with
    | none => Outcome.panic
    | some v => Outcome.ok (v, Advance q)

/-- `Front()`.  Same emptiness check as `Pop` but without spinning: on the
empty path it returns the zero value and `false`; on success it returns the
element at `rIdx` without advancing. -/
def Front [Inhabited T] (q : Queue T) : Outcome ((T × Bool) × Queue T) :=
  if q.rIdx = q.wIdxCached then
    if q.rIdx = q.wIdx then
      Outcome.ok ((default, false), { q with wIdxCached := q.wIdx })
    else
      match getItem q.items q.rIdx with
      | none => Outcome.panic
      | some v => Outcome.ok ((v, true), { q with wIdxCached := q.wIdx })
  else
    match getItem q.items q.rIdx with
    | none => Outcome.panic
    | some v => Outcome.ok ((v, true), q)

/-- `Len()`: one load of each index, then the count formula.  The final
branch is Go's `uint64(len(q.items)) - (rIdx - wIdx)`, a wrapping `uint64`
subtraction, written out with the explicit modulus. -/
def Len (q : Queue T) : Nat :=
  if q.wIdx = q.rIdx then 0
  else if q.wIdx > q.rIdx then q.wIdx - q.rIdx
  else (q.items.length + (U64 - (q.rIdx - q.wIdx))) % U64

/-- Number of occupied slots of an `n`-slot ring with read position `r` and
write position `w` (the mod-`n` distance from `r` to `w`), written without
`%` so that linear arithmetic can reason about it directly. -/
def cnt (n r w : Nat) : Nat :=
  if r ≤ w then w - r else n - (r - w)

/-- The abstract content of the ring segment from `r` (inclusive) to `w`
(exclusive), in dequeue order. -/
def modelSeg [Inhabited T] (l : List T) (r w : Nat) : List T :=
  (List.range (cnt l.length r w)).map (fun i => (getItem l ((r + i) % l.length)).getD default)

/-- The abstract queue content: the values the consumer would dequeue, in
order. -/
def model [Inhabited T] (q : Queue T) : List T :=
  modelSeg q.items q.rIdx q.wIdx

/-- Both ring indices are in bounds for the backing store, which is nonempty
and of `uint64`-representable length. -/
def idxOK (q : Queue T) : Prop :=
  0 < q.items.length ∧ q.items.length < U64 ∧
    q.rIdx < q.items.length ∧ q.wIdx < q.items.length

/-- Invariant of sequentially reachable states: all four index fields are in
bounds, the producer's cached read index is conservative (the producer sees
at least as many occupied slots as there really are), and the consumer's
cached write index is conservative (the consumer sees at most as many). -/
structure Inv (q : Queue T) : Prop where
  hpos : 0 < q.items.length
  hmax : q.items.length < U64
  hr : q.rIdx < q.items.length
  hw : q.wIdx < q.items.length
  hrc : q.rIdxCached < q.items.length
  hwc : q.wIdxCached < q.items.length
  hprod : cnt q.items.length q.rIdx q.wIdx ≤ cnt q.items.length q.rIdxCached q.wIdx
  hcons : cnt q.items.length q.rIdx q.wIdxCached ≤ cnt q.items.length q.rIdx q.wIdx

/-- Queue states reachable from `New` by a sequence of operations that
respects the documented usage contract: `Commit` only in a state a
successful `Reserve` has set up (producer-side slack was confirmed, which
intervening consumer operations cannot undo), and `Advance` only in a state
a successful `Front` has set up (an element was confirmed present). -/
inductive Reachable (T : Type) [Inhabited T] : Queue T → Prop where
  | new (size : Nat) : size + 1 < U64 → Reachable T (New T size)
  | push {q q' : Queue T} (v : T) :
      Reachable T q → Push q v = Outcome.ok q' → Reachable T q'
  | offer {q q' : Queue T} (v : T) (b : Bool) :
      Reachable T q → Offer q v = Outcome.ok (b, q') → Reachable T q'
  | reserve {q q' : Queue T} (r : T × Bool) :
      Reachable T q → Reserve q = Outcome.ok (r, q') → Reachable T q'
  | writeSlot {q : Queue T} (v : T) :
      Reachable T q → Reachable T { q with items := q.items.set q.wIdx v }
  | commit {q : Queue T} :
      Reachable T q → wrapNext q.wIdx q.items.length ≠ q.rIdxCached →
      Reachable T (Commit q)
  | pop {q q' : Queue T} (v : T) :
      Reachable T q → Pop q = Outcome.ok (v, q') → Reachable T q'
  | front {q q' : Queue T} (r : T × Bool) :
      Reachable T q → Front q = Outcome.ok (r, q') → Reachable T q'
  | advance {q : Queue T} :
      Reachable T q → q.rIdx ≠ q.wIdxCached → Reachable T (Advance q)

/-- One step of a sequential producer/consumer trace.  `rescommit v` is a
successful `Reserve`, a write of `v` into the reserved slot, then `Commit`;
`frontadv` is a successful `Front` followed by `Advance`. -/
inductive Op (T : Type) where
  | push : T → Op T
  | offer : T → Op T
  | rescommit : T → Op T
  | pop : Op T
  | frontadv : Op T

/-- The values enqueued by a trace, in order. -/
def enqs : List (Op T) → List T
  | [] => []
  | Op.push v :: rest => v :: enqs rest
  | Op.offer v :: rest => v :: enqs rest
  | Op.rescommit v :: rest => v :: enqs rest
  | Op.pop :: rest => enqs rest
  | Op.frontadv :: rest => enqs rest

/-- Run one trace step.  `none` means the step is not admissible as the
successful operation the trace demands (it would block, return a failure
indicator, or panic).  The first component records a dequeued value. -/
def stepOp [Inhabited T] (q : Queue T) : Op T → Option (Option T × Queue T)
  | Op.push v =>
      match Push q v with
      | Outcome.ok q' => some (none, q')
      | _ => none
  | Op.offer v =>
      match Offer q v with
      | Outcome.ok (true, q') => some (none, q')
      | _ => none
  | Op.rescommit v =>
      match Reserve q with
      | Outcome.ok ((_, true), q1) =>
          match setItem q1.items q1.wIdx v with
          | some l => some (none, Commit { q1 with items := l })
          | none => none
      | _ => none
  | Op.pop =>
      match Pop q with
      | Outcome.ok (v, q') => some (some v, q')
      | _ => none
  | Op.frontadv =>
      match Front q with
      | Outcome.ok ((v, true), q1) => some (some v, Advance q1)
      | _ => none

/-- Run a trace, collecting the dequeued values in order. -/
def runOps [Inhabited T] (q : Queue T) : List (Op T) → Option (List T × Queue T)
  | [] => some ([], q)
  | op :: rest =>
      match stepOp q op with
      | none => none
      | some (out, q') =>
          match runOps q' rest with
          | none => none
          | some (outs, q'') => some (out.toList ++ outs, q'')

/-- The operations that never spin: used to state that the zero-capacity
queue is inert under any sequence of them. -/
inductive NBOp (T : Type) where
  | offer : T → NBOp T
  | reserve : NBOp T
  | commit : NBOp T
  | front : NBOp T
  | advance : NBOp T

/-- The state after one non-blocking operation (the discarded value results
do not affect the state; the `panic` fallback never fires in the states this
is used on). -/
def nbStep [Inhabited T] (q : Queue T) : NBOp T → Queue T
  | NBOp.offer v =>
      match Offer q v with
      | Outcome.ok (_, q') => q'
      | _ => q
  | NBOp.reserve =>
      match Reserve q with
      | Outcome.ok (_, q') => q'
      | _ => q
  | NBOp.commit => Commit q
  | NBOp.front =>
      match Front q with
      | Outcome.ok (_, q') => q'
      | _ => q
  | NBOp.advance => Advance q

/-- The state after a sequence of non-blocking operations. -/
def nbRun [Inhabited T] (q : Queue T) : List (NBOp T) → Queue T
  | [] => q
  | op :: rest => nbRun (nbStep q op) rest

/-! ### Facts about the slice primitives -/

theorem setItem_eq_some {l l' : List T} {i : Nat} {v : T} :
    setItem l i v = some l' ↔ i < l.length ∧ l' = l.set i v := by
  constructor
  · intro h
    by_cases hi : i < l.length
    · simp only [setItem, if_pos hi, Option.some.injEq] at h
      exact ⟨hi, h.symm⟩
    · simp [setItem, hi] at h
  · rintro ⟨hi, rfl⟩
    simp [setItem, hi]

theorem getItem_of_lt {l : List T} {i : Nat} (h : i < l.length) :
    getItem l i = some (l.get ⟨i, h⟩) := by
  simp [getItem, h]

theorem getItem_lt {l : List T} {i : Nat} {v : T} (h : getItem l i = some v) :
    i < l.length := by
  by_cases hi : i < l.length
  · exact hi
  · simp [getItem, hi] at h

theorem getItem_set_self {l : List T} {i : Nat} (v : T) (h : i < l.length) :
    getItem (l.set i v) i = some v := by
  have h' : i < (l.set i v).length := by simpa using h
  rw [getItem_of_lt h']
  simp

theorem getItem_set_ne {l : List T} {i j : Nat} (v : T) (hne : i ≠ j) :
    getItem (l.set i v) j = getItem l j := by
  by_cases hj : j < l.length
  · have hj' : j < (l.set i v).length := by simpa using hj
    rw [getItem_of_lt hj', getItem_of_lt hj]
    simp only [List.get_eq_getElem, Option.some.injEq]
    exact List.getElem_set_ne hne _
  · have hj' : ¬ j < (l.set i v).length := by simpa using hj
    simp [getItem, hj, hj']

/-! ### Facts about the wrapping index arithmetic -/

theorem wrapNext_eq_ite {i n : Nat} (hi : i < n) (hn : n < U64) :
    wrapNext i n = if i + 1 = n then 0 else i + 1 := by
  unfold wrapNext
  rw [Nat.mod_eq_of_lt (by omega)]

theorem wrapNext_lt {i n : Nat} (hi : i < n) (hn : n < U64) : wrapNext i n < n := by
  rw [wrapNext_eq_ite hi hn]
  split <;> omega

theorem wrapNext_eq_mod {i n : Nat} (hi : i < n) (hn : n < U64) :
    wrapNext i n = (i + 1) % n := by
  rw [wrapNext_eq_ite hi hn]
  by_cases h : i + 1 = n
  · rw [if_pos h, h, Nat.mod_self]
  · rw [if_neg h, Nat.mod_eq_of_lt (by omega)]

theorem cnt_lt {n r w : Nat} (hr : r < n) (hw : w < n) : cnt n r w < n := by
  unfold cnt
  split <;> omega

theorem cnt_eq_zero_iff {n r w : Nat} (hr : r < n) (hw : w < n) :
    cnt n r w = 0 ↔ r = w := by
  unfold cnt
  split <;> omega

theorem wrapNext_w_eq_iff {n r w : Nat} (hr : r < n) (hw : w < n) (hn : n < U64) :
    wrapNext w n = r ↔ cnt n r w = n - 1 := by
  rw [wrapNext_eq_ite hw hn]
  unfold cnt
  split <;> split <;> omega

theorem cnt_wrapNext_w {n r w : Nat} (hr : r < n) (hw : w < n) (hn : n < U64)
    (hne : wrapNext w n ≠ r) : cnt n r (wrapNext w n) = cnt n r w + 1 := by
  rw [wrapNext_eq_ite hw hn] at hne ⊢
  unfold cnt
  split_ifs at hne ⊢ <;> omega

theorem cnt_wrapNext_r {n r w : Nat} (hr : r < n) (hw : w < n) (hn : n < U64)
    (hne : r ≠ w) : cnt n (wrapNext r n) w = cnt n r w - 1 := by
  rw [wrapNext_eq_ite hr hn]
  unfold cnt
  split_ifs <;> omega

theorem cnt_index {n r w : Nat} (hr : r < n) (hw : w < n) :
    (r + cnt n r w) % n = w := by
  unfold cnt
  by_cases h : r ≤ w
  · rw [if_pos h, show r + (w - r) = w by omega, Nat.mod_eq_of_lt hw]
  · rw [if_neg h, show r + (n - (r - w)) = n + w by omega, Nat.add_mod_left,
        Nat.mod_eq_of_lt hw]

theorem mod_add_inj {n r i j : Nat} (hi : i < n) (hj : j < n)
    (h : (r + i) % n = (r + j) % n) : i = j := by
  have h1 : r + i ≡ r + j [MOD n] := h
  have h2 : i ≡ j [MOD n] := Nat.ModEq.add_left_cancel (Nat.ModEq.refl r) h1
  have h3 : i % n = j % n := h2
  rwa [Nat.mod_eq_of_lt hi, Nat.mod_eq_of_lt hj] at h3

/-! ### How the abstract queue content evolves -/

theorem modelSeg_nil [Inhabited T] {l : List T} {r w : Nat}
    (h : cnt l.length r w = 0) : modelSeg l r w = [] := by
  simp [modelSeg, h]

theorem modelSeg_enq [Inhabited T] {l : List T} {r w : Nat} (v : T)
    (hr : r < l.length) (hw : w < l.length) (hn : l.length < U64)
    (hfull : wrapNext w l.length ≠ r) :
    modelSeg (l.set w v) r (wrapNext w l.length) = modelSeg l r w ++ [v] := by
  have hlen : (l.set w v).length = l.length := List.length_set l w v
  have hcn : cnt l.length r w < l.length := cnt_lt hr hw
  have hidx : (r + cnt l.length r w) % l.length = w := cnt_index hr hw
  unfold modelSeg
  rw [hlen, cnt_wrapNext_w hr hw hn hfull, List.range_succ, List.map_append]
  congr 1
  · apply List.map_congr_left
    intro i hi
    rw [List.mem_range] at hi
    have hne : (r + i) % l.length ≠ w := by
      intro he
      have : i = cnt l.length r w := mod_add_inj (by omega) hcn (he.trans hidx.symm)
      omega
    rw [getItem_set_ne v (fun he => hne he.symm)]
  · simp only [List.map_cons, List.map_nil]
    rw [hidx, getItem_set_self v hw]
    rfl

theorem modelSeg_deq [Inhabited T] {l : List T} {r w : Nat}
    (hr : r < l.length) (hw : w < l.length) (hn : l.length < U64)
    (hne : r ≠ w) :
    modelSeg l r w =
      (getItem l r).getD default :: modelSeg l (wrapNext r l.length) w := by
  have hc : cnt l.length r w ≠ 0 := fun h => hne ((cnt_eq_zero_iff hr hw).mp h)
  obtain ⟨c, hc'⟩ : ∃ c, cnt l.length r w = c + 1 :=
    ⟨cnt l.length r w - 1, by omega⟩
  have hdec : cnt l.length (wrapNext r l.length) w = c := by
    rw [cnt_wrapNext_r hr hw hn hne, hc']
    omega
  unfold modelSeg
  rw [hc', hdec, List.range_succ_eq_map, List.map_cons, List.map_map]
  congr 1
  · rw [Nat.add_zero, Nat.mod_eq_of_lt hr]
  · apply List.map_congr_left
    intro i hi
    simp only [Function.comp_apply]
    have hsh : (wrapNext r l.length + i) % l.length = (r + Nat.succ i) % l.length := by
      rw [wrapNext_eq_mod hr hn, Nat.mod_add_mod]
      congr 1
      omega
    rw [hsh]

/-! ### Shape of each operation's results -/

theorem Push_ok_elim {q q' : Queue T} {v : T}
    (h : Push q v = Outcome.ok q') :
    q.wIdx < q.items.length ∧ q'.items = q.items.set q.wIdx v ∧
      q'.rIdx = q.rIdx ∧ q'.wIdx = wrapNext q.wIdx q.items.length ∧
      q'.wIdxCached = q.wIdxCached ∧
      ((wrapNext q.wIdx q.items.length ≠ q.rIdxCached ∧ q'.rIdxCached = q.rIdxCached) ∨
       (wrapNext q.wIdx q.items.length ≠ q.rIdx ∧ q'.rIdxCached = q.rIdx)) := by
  obtain ⟨qi, qr, qwc, qw, qrc⟩ := q
  unfold Push at h
  split_ifs at h with h1 h2
  · rcases hset : setItem qi qw v with _ | l
    · simp only [hset] at h
      cases h
    · simp only [hset, Outcome.ok.injEq] at h
      obtain ⟨hlt, hl⟩ := setItem_eq_some.mp hset
      subst hl
      rw [← h]
      exact ⟨hlt, rfl, rfl, rfl, rfl, Or.inr ⟨h2, rfl⟩⟩
  · rcases hset : setItem qi qw v with _ | l
    · simp only [hset] at h
      cases h
    · simp only [hset, Outcome.ok.injEq] at h
      obtain ⟨hlt, hl⟩ := setItem_eq_some.mp hset
      subst hl
      rw [← h]
      exact ⟨hlt, rfl, rfl, rfl, rfl, Or.inl ⟨h1, rfl⟩⟩

theorem Offer_ok_elim {q q' : Queue T} {v : T} {b : Bool}
    (h : Offer q v = Outcome.ok (b, q')) :
    (b = false ∧ wrapNext q.wIdx q.items.length = q.rIdxCached ∧
       wrapNext q.wIdx q.items.length = q.rIdx ∧ q' = q) ∨
    (b = true ∧ q.wIdx < q.items.length ∧
       q'.items = q.items.set q.wIdx v ∧ q'.rIdx = q.rIdx ∧
       q'.wIdx = wrapNext q.wIdx q.items.length ∧ q'.wIdxCached = q.wIdxCached ∧
       ((wrapNext q.wIdx q.items.length ≠ q.rIdxCached ∧ q'.rIdxCached = q.rIdxCached) ∨
        (wrapNext q.wIdx q.items.length ≠ q.rIdx ∧ q'.rIdxCached = q.rIdx))) := by
  obtain ⟨qi, qr, qwc, qw, qrc⟩ := q
  unfold Offer at h
  split_ifs at h with h1 h2
  · left
    simp only [Outcome.ok.injEq, Prod.mk.injEq] at h
    obtain ⟨hb, hq'⟩ := h
    have hrc : qrc = qr := by
      have := h1.symm.trans h2
      exact this
    refine ⟨hb.symm, h1, h2, ?_⟩
    rw [← hq', hrc]
  · rcases hset : setItem qi qw v with _ | l
    · simp only [hset] at h
      cases h
    · simp only [hset, Outcome.ok.injEq, Prod.mk.injEq] at h
      obtain ⟨hb, hq'⟩ := h
      obtain ⟨hlt, hl⟩ := setItem_eq_some.mp hset
      subst hl
      rw [← hq']
      exact Or.inr ⟨hb.symm, hlt, rfl, rfl, rfl, rfl, Or.inr ⟨h2, rfl⟩⟩
  · rcases hset : setItem qi qw v with _ | l
    · simp only [hset] at h
      cases h
    · simp only [hset, Outcome.ok.injEq, Prod.mk.injEq] at h
      obtain ⟨hb, hq'⟩ := h
      obtain ⟨hlt, hl⟩ := setItem_eq_some.mp hset
      subst hl
      rw [← hq']
      exact Or.inr ⟨hb.symm, hlt, rfl, rfl, rfl, rfl, Or.inl ⟨h1, rfl⟩⟩

theorem Reserve_ok_elim [Inhabited T] {q q' : Queue T} {v0 : T} {b : Bool}
    (h : Reserve q = Outcome.ok ((v0, b), q')) :
    (b = false ∧ wrapNext q.wIdx q.items.length = q.rIdxCached ∧
       wrapNext q.wIdx q.items.length = q.rIdx ∧ q' = q ∧ v0 = default) ∨
    (b = true ∧ getItem q.items q.wIdx = some v0 ∧
       ((wrapNext q.wIdx q.items.length ≠ q.rIdxCached ∧ q' = q) ∨
        (wrapNext q.wIdx q.items.length = q.rIdxCached ∧
         wrapNext q.wIdx q.items.length ≠ q.rIdx ∧
         q' = { q with rIdxCached := q.rIdx }))) := by
  obtain ⟨qi, qr, qwc, qw, qrc⟩ := q
  unfold Reserve at h
  split_ifs at h with h1 h2
  · left
    simp only [Outcome.ok.injEq, Prod.mk.injEq] at h
    obtain ⟨⟨hv, hb⟩, hq'⟩ := h
    have hrc : qrc = qr := h1.symm.trans h2
    refine ⟨hb.symm, h1, h2, ?_, hv.symm⟩
    rw [← hq', hrc]
  · rcases hget : getItem qi qw with _ | v
    · simp only [hget] at h
      cases h
    · simp only [hget, Outcome.ok.injEq, Prod.mk.injEq] at h
      obtain ⟨⟨hv, hb⟩, hq'⟩ := h
      subst hv
      exact Or.inr ⟨hb.symm, rfl, Or.inr ⟨h1, h2, hq'.symm⟩⟩
  · rcases hget : getItem qi qw with _ | v
    · simp only [hget] at h
      cases h
    · simp only [hget, Outcome.ok.injEq, Prod.mk.injEq] at h
      obtain ⟨⟨hv, hb⟩, hq'⟩ := h
      subst hv
      exact Or.inr ⟨hb.symm, rfl, Or.inl ⟨h1, hq'.symm⟩⟩

theorem Pop_ok_elim {q q' : Queue T} {v : T}
    (h : Pop q = Outcome.ok (v, q')) :
    getItem q.items q.rIdx = some v ∧
      ((q.rIdx ≠ q.wIdxCached ∧ q' = Advance q) ∨
       (q.rIdx = q.wIdxCached ∧ q.rIdx ≠ q.wIdx ∧
        q' = Advance { q with wIdxCached := q.wIdx })) := by
  obtain ⟨qi, qr, qwc, qw, qrc⟩ := q
  unfold Pop at h
  split_ifs at h with h1 h2
  · rcases hget : getItem qi qr with _ | v1
    · simp only [hget] at h
      cases h
    · simp only [hget, Outcome.ok.injEq, Prod.mk.injEq] at h
      obtain ⟨hv, hq'⟩ := h
      subst hv
      exact ⟨rfl, Or.inr ⟨h1, h2, hq'.symm⟩⟩
  · rcases hget : getItem qi qr with _ | v1
    · simp only [hget] at h
      cases h
    · simp only [hget, Outcome.ok.injEq, Prod.mk.injEq] at h
      obtain ⟨hv, hq'⟩ := h
      subst hv
      exact ⟨rfl, Or.inl ⟨h1, hq'.symm⟩⟩

theorem Front_ok_elim [Inhabited T] {q q' : Queue T} {v : T} {b : Bool}
    (h : Front q = Outcome.ok ((v, b), q')) :
    (b = false ∧ q.rIdx = q.wIdxCached ∧ q.rIdx = q.wIdx ∧ q' = q ∧ v = default) ∨
    (b = true ∧ getItem q.items q.rIdx = some v ∧
       ((q.rIdx ≠ q.wIdxCached ∧ q' = q) ∨
        (q.rIdx = q.wIdxCached ∧ q.rIdx ≠ q.wIdx ∧
         q' = { q with wIdxCached := q.wIdx }))) := by
  obtain ⟨qi, qr, qwc, qw, qrc⟩ := q
  unfold Front at h
  split_ifs at h with h1 h2
  · left
    simp only [Outcome.ok.injEq, Prod.mk.injEq] at h
    obtain ⟨⟨hv, hb⟩, hq'⟩ := h
    refine ⟨hb.symm, h1, h2, ?_, hv.symm⟩
    have h1' : qr = qwc := h1
    have h2' : qr = qw := h2
    have hww : qwc = qw := by omega
    rw [← hq', hww]
  · rcases hget : getItem qi qr with _ | v1
    · simp only [hget] at h
      cases h
    · simp only [hget, Outcome.ok.injEq, Prod.mk.injEq] at h
      obtain ⟨⟨hv, hb⟩, hq'⟩ := h
      subst hv
      exact Or.inr ⟨hb.symm, rfl, Or.inr ⟨h1, h2, hq'.symm⟩⟩
  · rcases hget : getItem qi qr with _ | v1
    · simp only [hget] at h
      cases h
    · simp only [hget, Outcome.ok.injEq, Prod.mk.injEq] at h
      obtain ⟨⟨hv, hb⟩, hq'⟩ := h
      subst hv
      exact Or.inr ⟨hb.symm, rfl, Or.inl ⟨h1, hq'.symm⟩⟩

theorem Front_intro_fast [Inhabited T] {q : Queue T} {v : T}
    (hne : q.rIdx ≠ q.wIdxCached) (hget : getItem q.items q.rIdx = some v) :
    Front q = Outcome.ok ((v, true), q) := by
  unfold Front
  rw [if_neg hne, hget]

theorem Reserve_intro_fast [Inhabited T] {q : Queue T} {v : T}
    (hne : wrapNext q.wIdx q.items.length ≠ q.rIdxCached)
    (hget : getItem q.items q.wIdx = some v) :
    Reserve q = Outcome.ok ((v, true), q) := by
  unfold Reserve
  rw [if_neg hne, hget]

/-! ### Preservation of the reachable-state invariant -/

theorem next_ne_rIdx {q : Queue T} (hq : Inv q)
    (h : wrapNext q.wIdx q.items.length ≠ q.rIdxCached) :
    wrapNext q.wIdx q.items.length ≠ q.rIdx := by
  intro he
  have h1 := (wrapNext_w_eq_iff hq.hr hq.hw hq.hmax).mp he
  have h2 := cnt_lt hq.hrc hq.hw
  have h3 := hq.hprod
  have h4 : cnt q.items.length q.rIdxCached q.wIdx = q.items.length - 1 := by omega
  exact h ((wrapNext_w_eq_iff hq.hrc hq.hw hq.hmax).mpr h4)

theorem Inv.enqueue {q q' : Queue T} {v : T} (hq : Inv q)
    (hitems : q'.items = q.items.set q.wIdx v) (hri : q'.rIdx = q.rIdx)
    (hwi : q'.wIdx = wrapNext q.wIdx q.items.length) (hwci : q'.wIdxCached = q.wIdxCached)
    (hrcase : (wrapNext q.wIdx q.items.length ≠ q.rIdxCached ∧ q'.rIdxCached = q.rIdxCached) ∨
              (wrapNext q.wIdx q.items.length ≠ q.rIdx ∧ q'.rIdxCached = q.rIdx)) :
    Inv q' := by
  have hlen : q'.items.length = q.items.length := by rw [hitems, List.length_set]
  have hnr : wrapNext q.wIdx q.items.length ≠ q.rIdx := by
    rcases hrcase with ⟨hne, _⟩ | ⟨hne, _⟩
    · exact next_ne_rIdx hq hne
    · exact hne
  have hwlt : wrapNext q.wIdx q.items.length < q.items.length := wrapNext_lt hq.hw hq.hmax
  have hcw : cnt q.items.length q.rIdx (wrapNext q.wIdx q.items.length) =
      cnt q.items.length q.rIdx q.wIdx + 1 := cnt_wrapNext_w hq.hr hq.hw hq.hmax hnr
  constructor
  · rw [hlen]
    exact hq.hpos
  · rw [hlen]
    exact hq.hmax
  · rw [hlen, hri]
    exact hq.hr
  · rw [hlen, hwi]
    exact hwlt
  · rw [hlen]
    rcases hrcase with ⟨_, hrc⟩ | ⟨_, hrc⟩
    · rw [hrc]
      exact hq.hrc
    · rw [hrc]
      exact hq.hr
  · rw [hlen, hwci]
    exact hq.hwc
  · rw [hlen, hri, hwi]
    rcases hrcase with ⟨hne, hrc⟩ | ⟨hne, hrc⟩
    · rw [hrc]
      have hcrc : cnt q.items.length q.rIdxCached (wrapNext q.wIdx q.items.length) =
          cnt q.items.length q.rIdxCached q.wIdx + 1 :=
        cnt_wrapNext_w hq.hrc hq.hw hq.hmax hne
      have := hq.hprod
      omega
    · rw [hrc]
  · rw [hlen, hri, hwi, hwci, hcw]
    have := hq.hcons
    omega

theorem Inv.push {q q' : Queue T} {v : T} (hq : Inv q)
    (h : Push q v = Outcome.ok q') : Inv q' := by
  obtain ⟨hlt, hitems, hri, hwi, hwci, hrcase⟩ := Push_ok_elim h
  exact Inv.enqueue hq hitems hri hwi hwci hrcase

theorem Inv.offer {q q' : Queue T} {v : T} {b : Bool} (hq : Inv q)
    (h : Offer q v = Outcome.ok (b, q')) : Inv q' := by
  rcases Offer_ok_elim h with ⟨_, _, _, rfl⟩ | ⟨_, hlt, hitems, hri, hwi, hwci, hrcase⟩
  · exact hq
  · exact Inv.enqueue hq hitems hri hwi hwci hrcase

theorem Inv.rcRefresh {q : Queue T} (hq : Inv q) :
    Inv { q with rIdxCached := q.rIdx } := by
  obtain ⟨qi, qr, qwc, qw, qrc⟩ := q
  exact ⟨hq.hpos, hq.hmax, hq.hr, hq.hw, hq.hr, hq.hwc, Nat.le_refl _, hq.hcons⟩

theorem Inv.wcRefresh {q : Queue T} (hq : Inv q) :
    Inv { q with wIdxCached := q.wIdx } := by
  obtain ⟨qi, qr, qwc, qw, qrc⟩ := q
  exact ⟨hq.hpos, hq.hmax, hq.hr, hq.hw, hq.hrc, hq.hw, hq.hprod, Nat.le_refl _⟩

theorem Inv.reserve [Inhabited T] {q q' : Queue T} {r : T × Bool} (hq : Inv q)
    (h : Reserve q = Outcome.ok (r, q')) : Inv q' := by
  obtain ⟨v0, b⟩ := r
  rcases Reserve_ok_elim h with ⟨_, _, _, rfl, _⟩ | ⟨_, _, ⟨_, rfl⟩ | ⟨_, _, rfl⟩⟩
  · exact hq
  · exact hq
  · exact Inv.rcRefresh hq

theorem Inv.front [Inhabited T] {q q' : Queue T} {r : T × Bool} (hq : Inv q)
    (h : Front q = Outcome.ok (r, q')) : Inv q' := by
  obtain ⟨v0, b⟩ := r
  rcases Front_ok_elim h with ⟨_, _, _, rfl, _⟩ | ⟨_, _, ⟨_, rfl⟩ | ⟨_, _, rfl⟩⟩
  · exact hq
  · exact hq
  · exact Inv.wcRefresh hq

theorem Inv.advance {q : Queue T} (hq : Inv q) (hne : q.rIdx ≠ q.wIdxCached) :
    Inv (Advance q) := by
  obtain ⟨qi, qr, qwc, qw, qrc⟩ := q
  have hr : qr < qi.length := hq.hr
  have hw : qw < qi.length := hq.hw
  have hrc : qrc < qi.length := hq.hrc
  have hwc : qwc < qi.length := hq.hwc
  have hmax : qi.length < U64 := hq.hmax
  have hprod : cnt qi.length qr qw ≤ cnt qi.length qrc qw := hq.hprod
  have hcons : cnt qi.length qr qwc ≤ cnt qi.length qr qw := hq.hcons
  have hne' : qr ≠ qwc := hne
  have hCne : cnt qi.length qr qwc ≠ 0 := fun h0 => hne' ((cnt_eq_zero_iff hr hwc).mp h0)
  have hrw : qr ≠ qw := by
    intro he
    have := (cnt_eq_zero_iff hr hw).mpr he
    omega
  have hcr : cnt qi.length (wrapNext qr qi.length) qw = cnt qi.length qr qw - 1 :=
    cnt_wrapNext_r hr hw hmax hrw
  have hcrc : cnt qi.length (wrapNext qr qi.length) qwc = cnt qi.length qr qwc - 1 :=
    cnt_wrapNext_r hr hwc hmax hne'
  show Inv (Queue.mk qi (wrapNext qr qi.length) qwc qw qrc)
  refine ⟨hq.hpos, hmax, wrapNext_lt hr hmax, hw, hrc, hwc, ?_, ?_⟩
  · show cnt qi.length (wrapNext qr qi.length) qw ≤ cnt qi.length qrc qw
    omega
  · show cnt qi.length (wrapNext qr qi.length) qwc ≤ cnt qi.length (wrapNext qr qi.length) qw
    omega

theorem Inv.commit {q : Queue T} (hq : Inv q)
    (hne : wrapNext q.wIdx q.items.length ≠ q.rIdxCached) : Inv (Commit q) := by
  obtain ⟨qi, qr, qwc, qw, qrc⟩ := q
  have hr : qr < qi.length := hq.hr
  have hw : qw < qi.length := hq.hw
  have hrc : qrc < qi.length := hq.hrc
  have hwc : qwc < qi.length := hq.hwc
  have hmax : qi.length < U64 := hq.hmax
  have hprod : cnt qi.length qr qw ≤ cnt qi.length qrc qw := hq.hprod
  have hcons : cnt qi.length qr qwc ≤ cnt qi.length qr qw := hq.hcons
  have hne' : wrapNext qw qi.length ≠ qrc := hne
  have hnontop : cnt qi.length qrc qw ≠ qi.length - 1 :=
    fun hcc => hne' ((wrapNext_w_eq_iff hrc hw hmax).mpr hcc)
  have hltP : cnt qi.length qrc qw < qi.length := cnt_lt hrc hw
  have hner : wrapNext qw qi.length ≠ qr := by
    intro he
    have := (wrapNext_w_eq_iff hr hw hmax).mp he
    omega
  have hcw : cnt qi.length qr (wrapNext qw qi.length) = cnt qi.length qr qw + 1 :=
    cnt_wrapNext_w hr hw hmax hner
  have hcrc : cnt qi.length qrc (wrapNext qw qi.length) = cnt qi.length qrc qw + 1 :=
    cnt_wrapNext_w hrc hw hmax hne'
  show Inv (Queue.mk qi qr qwc (wrapNext qw qi.length) qrc)
  refine ⟨hq.hpos, hmax, hr, wrapNext_lt hw hmax, hrc, hwc, ?_, ?_⟩
  · show cnt qi.length qr (wrapNext qw qi.length) ≤ cnt qi.length qrc (wrapNext qw qi.length)
    omega
  · show cnt qi.length qr qwc ≤ cnt qi.length qr (wrapNext qw qi.length)
    omega

theorem Inv.pop {q q' : Queue T} {v : T} (hq : Inv q)
    (h : Pop q = Outcome.ok (v, q')) : Inv q' := by
  obtain ⟨hget, hcase⟩ := Pop_ok_elim h
  rcases hcase with ⟨hne, rfl⟩ | ⟨hg, hne, rfl⟩
  · exact Inv.advance hq hne
  · exact Inv.advance (Inv.wcRefresh hq) hne

theorem Inv.writeSlot {q : Queue T} (v : T) (hq : Inv q) :
    Inv { q with items := q.items.set q.wIdx v } := by
  obtain ⟨qi, qr, qwc, qw, qrc⟩ := q
  have hl : (qi.set qw v).length = qi.length := List.length_set qi qw v
  show Inv (Queue.mk (qi.set qw v) qr qwc qw qrc)
  refine ⟨?_, ?_, ?_, ?_, ?_, ?_, ?_, ?_⟩ <;> rw [hl]
  · exact hq.hpos
  · exact hq.hmax
  · exact hq.hr
  · exact hq.hw
  · exact hq.hrc
  · exact hq.hwc
  · exact hq.hprod
  · exact hq.hcons

theorem Inv.new (T : Type) [Inhabited T] (size : Nat) (h : size + 1 < U64) :
    Inv (New T size) := by
  have hn : (size + 1) % U64 = size + 1 := Nat.mod_eq_of_lt h
  have hp : 0 < (New T size).items.length := by
    show 0 < (List.replicate ((size + 1) % U64) (default : T)).length
    rw [List.length_replicate, hn]
    omega
  have hm : (New T size).items.length < U64 := by
    show (List.replicate ((size + 1) % U64) (default : T)).length < U64
    rw [List.length_replicate, hn]
    exact h
  exact ⟨hp, hm, hp, hp, hp, hp, Nat.le_refl _, Nat.le_refl _⟩

theorem reachable_inv {T : Type} [Inhabited T] {q : Queue T}
    (h : Reachable T q) : Inv q := by
  induction h with
  | new size hs => exact Inv.new T size hs
  | push v hr hp ih => exact Inv.push ih hp
  | offer v b hr hp ih => exact Inv.offer ih hp
  | reserve r hr hp ih => exact Inv.reserve ih hp
  | writeSlot v hr ih => exact Inv.writeSlot v ih
  | commit hr hne ih => exact Inv.commit ih hne
  | pop v hr hp ih => exact Inv.pop ih hp
  | front r hr hp ih => exact Inv.front ih hp
  | advance hr hne ih => exact Inv.advance ih hne

/-! ### The operations against the abstract list -/

theorem ne_wIdx_of_ne_wIdxCached {q : Queue T} (hq : Inv q)
    (hne : q.rIdx ≠ q.wIdxCached) : q.rIdx ≠ q.wIdx := by
  intro he
  have h0 : cnt q.items.length q.rIdx q.wIdx = 0 := (cnt_eq_zero_iff hq.hr hq.hw).mpr he
  have h1 := hq.hcons
  have h2 : cnt q.items.length q.rIdx q.wIdxCached = 0 := by omega
  exact hne ((cnt_eq_zero_iff hq.hr hq.hwc).mp h2)

theorem model_enqueue_shape {q q' : Queue T} [Inhabited T] {v : T} (hq : Inv q)
    (hitems : q'.items = q.items.set q.wIdx v) (hri : q'.rIdx = q.rIdx)
    (hwi : q'.wIdx = wrapNext q.wIdx q.items.length)
    (hnr : wrapNext q.wIdx q.items.length ≠ q.rIdx) :
    model q' = model q ++ [v] := by
  unfold model
  rw [hitems, hri, hwi]
  exact modelSeg_enq v hq.hr hq.hw hq.hmax hnr

theorem model_push {q q' : Queue T} [Inhabited T] {v : T} (hq : Inv q)
    (h : Push q v = Outcome.ok q') : model q' = model q ++ [v] := by
  obtain ⟨hlt, hitems, hri, hwi, hwci, hrcase⟩ := Push_ok_elim h
  have hnr : wrapNext q.wIdx q.items.length ≠ q.rIdx := by
    rcases hrcase with ⟨hne, _⟩ | ⟨hne, _⟩
    · exact next_ne_rIdx hq hne
    · exact hne
  exact model_enqueue_shape hq hitems hri hwi hnr

theorem model_offer_true {q q' : Queue T} [Inhabited T] {v : T} (hq : Inv q)
    (h : Offer q v = Outcome.ok (true, q')) : model q' = model q ++ [v] := by
  rcases Offer_ok_elim h with ⟨hb, _⟩ | ⟨_, hlt, hitems, hri, hwi, hwci, hrcase⟩
  · cases hb
  · have hnr : wrapNext q.wIdx q.items.length ≠ q.rIdx := by
      rcases hrcase with ⟨hne, _⟩ | ⟨hne, _⟩
      · exact next_ne_rIdx hq hne
      · exact hne
    exact model_enqueue_shape hq hitems hri hwi hnr

theorem rescommit_final {q q1 : Queue T} [Inhabited T] {v0 v : T} {l2 : List T}
    (hq : Inv q) (hres : Reserve q = Outcome.ok ((v0, true), q1))
    (hset : setItem q1.items q1.wIdx v = some l2) :
    Inv (Commit { q1 with items := l2 }) ∧
      model (Commit { q1 with items := l2 }) = model q ++ [v] := by
  rcases Reserve_ok_elim hres with ⟨hb, _⟩ | ⟨_, hget, hcase⟩
  · cases hb
  rcases hcase with ⟨hne, hq1⟩ | ⟨hg, hne, rfl⟩
  · -- fast path: the state returned by Reserve is q itself
    rw [hq1] at hset ⊢
    have hnr : wrapNext q.wIdx q.items.length ≠ q.rIdx := next_ne_rIdx hq hne
    obtain ⟨hlt, hl2⟩ := setItem_eq_some.mp hset
    subst hl2
    have hwi : (Commit { q with items := q.items.set q.wIdx v }).wIdx =
        wrapNext q.wIdx q.items.length := by
      show wrapNext q.wIdx (q.items.set q.wIdx v).length = wrapNext q.wIdx q.items.length
      rw [List.length_set]
    exact ⟨Inv.enqueue hq rfl rfl hwi rfl (Or.inl ⟨hne, rfl⟩),
      model_enqueue_shape hq rfl rfl hwi hnr⟩
  · -- refresh path: the state returned by Reserve has the cache refreshed
    obtain ⟨hlt, hl2⟩ := setItem_eq_some.mp hset
    subst hl2
    have hwi : (Commit { q with rIdxCached := q.rIdx, items := q.items.set q.wIdx v }).wIdx =
        wrapNext q.wIdx q.items.length := by
      show wrapNext q.wIdx (q.items.set q.wIdx v).length = wrapNext q.wIdx q.items.length
      rw [List.length_set]
    exact ⟨Inv.enqueue hq rfl rfl hwi rfl (Or.inr ⟨hne, rfl⟩),
      model_enqueue_shape hq rfl rfl hwi hne⟩

theorem model_dequeue_shape {q q1 : Queue T} [Inhabited T] {v : T} (hq : Inv q)
    (hget : getItem q.items q.rIdx = some v)
    (hitems : q1.items = q.items) (hri : q1.rIdx = q.rIdx) (hwi : q1.wIdx = q.wIdx)
    (hne : q.rIdx ≠ q.wIdx) :
    model q = v :: model (Advance q1) := by
  unfold model
  have h1 : (Advance q1).items = q.items := hitems
  have h2 : (Advance q1).rIdx = wrapNext q.rIdx q.items.length := by
    show wrapNext q1.rIdx q1.items.length = wrapNext q.rIdx q.items.length
    rw [hri, hitems]
  have h3 : (Advance q1).wIdx = q.wIdx := hwi
  rw [h1, h2, h3, modelSeg_deq hq.hr hq.hw hq.hmax hne, hget]
  rfl

theorem model_pop {q q' : Queue T} [Inhabited T] {v : T} (hq : Inv q)
    (h : Pop q = Outcome.ok (v, q')) : model q = v :: model q' := by
  obtain ⟨hget, hcase⟩ := Pop_ok_elim h
  rcases hcase with ⟨hne, rfl⟩ | ⟨hg, hne, rfl⟩
  · exact model_dequeue_shape hq hget rfl rfl rfl (ne_wIdx_of_ne_wIdxCached hq hne)
  · exact model_dequeue_shape hq hget rfl rfl rfl hne

theorem model_frontadv {q q1 : Queue T} [Inhabited T] {v : T} (hq : Inv q)
    (h : Front q = Outcome.ok ((v, true), q1)) :
    model q = v :: model (Advance q1) ∧ Inv (Advance q1) := by
  rcases Front_ok_elim h with ⟨hb, _⟩ | ⟨_, hget, hcase⟩
  · cases hb
  rcases hcase with ⟨hne, rfl⟩ | ⟨hg, hne, rfl⟩
  · exact ⟨model_dequeue_shape hq hget rfl rfl rfl (ne_wIdx_of_ne_wIdxCached hq hne),
      Inv.advance hq hne⟩
  · exact ⟨model_dequeue_shape hq hget rfl rfl rfl hne,
      Inv.advance (Inv.wcRefresh hq) hne⟩

/-! ### Traces refine the functional queue -/

theorem stepOp_model [Inhabited T] {q q1 : Queue T} {op : Op T} {out : Option T}
    (hq : Inv q) (h : stepOp q op = some (out, q1)) :
    Inv q1 ∧ model q ++ enqs [op] = out.toList ++ model q1 := by
  cases op with
  | push v =>
    unfold stepOp at h
    cases hP : Push q v with
    | ok q2 =>
      simp only [hP, Option.some.injEq, Prod.mk.injEq] at h
      obtain ⟨hout, hq1⟩ := h
      subst hout
      subst hq1
      refine ⟨Inv.push hq hP, ?_⟩
      simp [enqs, model_push hq hP]
    | panic =>
      simp only [hP] at h
      cases h
    | block =>
      simp only [hP] at h
      cases h
  | offer v =>
    unfold stepOp at h
    cases hP : Offer q v with
    | ok p =>
      obtain ⟨b, q2⟩ := p
      cases b with
      | false =>
        simp only [hP] at h
        cases h
      | true =>
        simp only [hP, Option.some.injEq, Prod.mk.injEq] at h
        obtain ⟨hout, hq1⟩ := h
        subst hout
        subst hq1
        refine ⟨Inv.offer hq hP, ?_⟩
        simp [enqs, model_offer_true hq hP]
    | panic =>
      simp only [hP] at h
      cases h
    | block =>
      simp only [hP] at h
      cases h
  | rescommit v =>
    unfold stepOp at h
    cases hP : Reserve q with
    | ok p =>
      obtain ⟨⟨v0, b⟩, q2⟩ := p
      cases b with
      | false =>
        simp only [hP] at h
        cases h
      | true =>
        simp only [hP] at h
        cases hS : setItem q2.items q2.wIdx v with
        | none =>
          simp only [hS] at h
          cases h
        | some l2 =>
          simp only [hS, Option.some.injEq, Prod.mk.injEq] at h
          obtain ⟨hout, hq1⟩ := h
          subst hout
          subst hq1
          obtain ⟨hinv, hm⟩ := rescommit_final hq hP hS
          refine ⟨hinv, ?_⟩
          simp [enqs, hm]
    | panic =>
      simp only [hP] at h
      cases h
    | block =>
      simp only [hP] at h
      cases h
  | pop =>
    unfold stepOp at h
    cases hP : Pop q with
    | ok p =>
      obtain ⟨v2, q2⟩ := p
      simp only [hP, Option.some.injEq, Prod.mk.injEq] at h
      obtain ⟨hout, hq1⟩ := h
      subst hout
      subst hq1
      refine ⟨Inv.pop hq hP, ?_⟩
      simp [enqs, ← model_pop hq hP]
    | panic =>
      simp only [hP] at h
      cases h
    | block =>
      simp only [hP] at h
      cases h
  | frontadv =>
    unfold stepOp at h
    cases hP : Front q with
    | ok p =>
      obtain ⟨⟨v2, b⟩, q2⟩ := p
      cases b with
      | false =>
        simp only [hP] at h
        cases h
      | true =>
        simp only [hP, Option.some.injEq, Prod.mk.injEq] at h
        obtain ⟨hout, hq1⟩ := h
        subst hout
        subst hq1
        obtain ⟨hm, hinv⟩ := model_frontadv hq hP
        refine ⟨hinv, ?_⟩
        simp [enqs, ← hm]
    | panic =>
      simp only [hP] at h
      cases h
    | block =>
      simp only [hP] at h
      cases h

theorem runOps_model [Inhabited T] (ops : List (Op T)) :
    ∀ (q : Queue T) (outs : List T) (qf : Queue T), Inv q →
      runOps q ops = some (outs, qf) →
      Inv qf ∧ model q ++ enqs ops = outs ++ model qf := by
  induction ops with
  | nil =>
    intro q outs qf hq h
    simp only [runOps, Option.some.injEq, Prod.mk.injEq] at h
    obtain ⟨h1, h2⟩ := h
    subst h1
    subst h2
    exact ⟨hq, by simp [enqs]⟩
  | cons op rest ih =>
    intro q outs qf hq h
    simp only [runOps] at h
    cases hstep : stepOp q op with
    | none =>
      rw [hstep] at h
      cases h
    | some p =>
      obtain ⟨out, q1⟩ := p
      simp only [hstep] at h
      cases hrun : runOps q1 rest with
      | none =>
        simp only [hrun] at h
        cases h
      | some p2 =>
        obtain ⟨outs1, qf1⟩ := p2
        simp only [hrun, Option.some.injEq, Prod.mk.injEq] at h
        obtain ⟨houts, hqf⟩ := h
        subst houts
        subst hqf
        obtain ⟨hinv1, hm1⟩ := stepOp_model hq hstep
        obtain ⟨hinvf, hmf⟩ := ih q1 outs1 qf1 hinv1 hrun
        refine ⟨hinvf, ?_⟩
        have hsplit : enqs (op :: rest) = enqs [op] ++ enqs rest := by
          cases op <;> simp [enqs]
        rw [hsplit, ← List.append_assoc, hm1, List.append_assoc, hmf, ← List.append_assoc]

/-! ### Success and failure characterizations on invariant states -/

theorem rcRefresh_eq_self {q : Queue T} (h : q.rIdxCached = q.rIdx) :
    { q with rIdxCached := q.rIdx } = q := by
  obtain ⟨qi, qr, qwc, qw, qrc⟩ := q
  have h' : qrc = qr := h
  subst h'
  rfl

theorem wcRefresh_eq_self {q : Queue T} (h : q.wIdxCached = q.wIdx) :
    { q with wIdxCached := q.wIdx } = q := by
  obtain ⟨qi, qr, qwc, qw, qrc⟩ := q
  have h' : qwc = qw := h
  subst h'
  rfl

theorem Offer_intro_full {q : Queue T} (hq : Inv q) (v : T)
    (hfull : wrapNext q.wIdx q.items.length = q.rIdx) :
    Offer q v = Outcome.ok (false, q) := by
  have h1 : cnt q.items.length q.rIdx q.wIdx = q.items.length - 1 :=
    (wrapNext_w_eq_iff hq.hr hq.hw hq.hmax).mp hfull
  have h2 := hq.hprod
  have h3 := cnt_lt hq.hrc hq.hw
  have h4 : cnt q.items.length q.rIdxCached q.wIdx = q.items.length - 1 := by omega
  have hrc : wrapNext q.wIdx q.items.length = q.rIdxCached :=
    (wrapNext_w_eq_iff hq.hrc hq.hw hq.hmax).mpr h4
  have hrceq : q.rIdxCached = q.rIdx := by rw [← hrc, hfull]
  unfold Offer
  rw [if_pos hrc, if_pos hfull, rcRefresh_eq_self hrceq]

theorem Offer_intro_notfull {q : Queue T} (hq : Inv q) (v : T)
    (hnf : wrapNext q.wIdx q.items.length ≠ q.rIdx) :
    ∃ q', Offer q v = Outcome.ok (true, q') := by
  have hs : setItem q.items q.wIdx v = some (q.items.set q.wIdx v) :=
    setItem_eq_some.mpr ⟨hq.hw, rfl⟩
  unfold Offer
  by_cases hg : wrapNext q.wIdx q.items.length = q.rIdxCached
  · rw [if_pos hg, if_neg hnf, hs]
    exact ⟨_, rfl⟩
  · rw [if_neg hg, hs]
    exact ⟨_, rfl⟩

theorem Reserve_intro_full [Inhabited T] {q : Queue T} (hq : Inv q)
    (hfull : wrapNext q.wIdx q.items.length = q.rIdx) :
    Reserve q = Outcome.ok ((default, false), q) := by
  have h1 : cnt q.items.length q.rIdx q.wIdx = q.items.length - 1 :=
    (wrapNext_w_eq_iff hq.hr hq.hw hq.hmax).mp hfull
  have h2 := hq.hprod
  have h3 := cnt_lt hq.hrc hq.hw
  have h4 : cnt q.items.length q.rIdxCached q.wIdx = q.items.length - 1 := by omega
  have hrc : wrapNext q.wIdx q.items.length = q.rIdxCached :=
    (wrapNext_w_eq_iff hq.hrc hq.hw hq.hmax).mpr h4
  have hrceq : q.rIdxCached = q.rIdx := by rw [← hrc, hfull]
  unfold Reserve
  rw [if_pos hrc, if_pos hfull, rcRefresh_eq_self hrceq]

theorem Reserve_intro_notfull [Inhabited T] {q : Queue T} (hq : Inv q)
    (hnf : wrapNext q.wIdx q.items.length ≠ q.rIdx) :
    ∃ v' q', Reserve q = Outcome.ok ((v', true), q') := by
  have hg' : getItem q.items q.wIdx = some (q.items.get ⟨q.wIdx, hq.hw⟩) :=
    getItem_of_lt hq.hw
  unfold Reserve
  by_cases hg : wrapNext q.wIdx q.items.length = q.rIdxCached
  · rw [if_pos hg, if_neg hnf, hg']
    exact ⟨_, _, rfl⟩
  · rw [if_neg hg, hg']
    exact ⟨_, _, rfl⟩

theorem Front_intro_empty [Inhabited T] {q : Queue T} (hq : Inv q)
    (hempty : q.rIdx = q.wIdx) :
    Front q = Outcome.ok ((default, false), q) := by
  have h0 : cnt q.items.length q.rIdx q.wIdx = 0 :=
    (cnt_eq_zero_iff hq.hr hq.hw).mpr hempty
  have h1 := hq.hcons
  have hwc : q.rIdx = q.wIdxCached :=
    (cnt_eq_zero_iff hq.hr hq.hwc).mp (by omega)
  unfold Front
  rw [if_pos hwc, if_pos hempty, wcRefresh_eq_self (hwc.symm.trans hempty)]

theorem Front_intro_nonempty [Inhabited T] {q : Queue T} (hq : Inv q)
    (hne : q.rIdx ≠ q.wIdx) :
    ∃ v' q', Front q = Outcome.ok ((v', true), q') := by
  have hg' : getItem q.items q.rIdx = some (q.items.get ⟨q.rIdx, hq.hr⟩) :=
    getItem_of_lt hq.hr
  unfold Front
  by_cases hg : q.rIdx = q.wIdxCached
  · rw [if_pos hg, if_neg hne, hg']
    exact ⟨_, _, rfl⟩
  · rw [if_neg hg, hg']
    exact ⟨_, _, rfl⟩

/-! ### The zero-capacity queue is inert -/

theorem offer_new0 [Inhabited T] (v : T) :
    Offer (New T 0) v = Outcome.ok (false, New T 0) := rfl

theorem reserve_new0 [Inhabited T] :
    Reserve (New T 0) = Outcome.ok ((default, false), New T 0) := rfl

theorem front_new0 [Inhabited T] :
    Front (New T 0) = Outcome.ok ((default, false), New T 0) := rfl

theorem commit_new0 [Inhabited T] : Commit (New T 0) = New T 0 := rfl

theorem advance_new0 [Inhabited T] : Advance (New T 0) = New T 0 := rfl

theorem len_new0 [Inhabited T] : Len (New T 0) = 0 := rfl

theorem nbStep_new0 [Inhabited T] (op : NBOp T) : nbStep (New T 0) op = New T 0 := by
  cases op with
  | offer v => simp only [nbStep, offer_new0]
  | reserve => simp only [nbStep, reserve_new0]
  | commit => exact commit_new0
  | front => simp only [nbStep, front_new0]
  | advance => exact advance_new0

theorem nbRun_new0 [Inhabited T] (ops : List (NBOp T)) :
    nbRun (New T 0) ops = New T 0 := by
  induction ops with
  | nil => rfl
  | cons op rest ih =>
    unfold nbRun
    rw [nbStep_new0]
    exact ih

/-! ### The claims -/

/-- C1: for every queue created by `New` and every sequential trace of
successful enqueue operations (`Push`, `Offer` returning `true`, or a
successful `Reserve` followed by a slot write and `Commit`) interleaved with
successful dequeue operations (`Pop`, or a successful `Front` followed by
`Advance`), the dequeued values are, in order, exactly the enqueued values
with no reordering, loss or duplication: the trace's outputs followed by the
remaining queue content equal the enqueued sequence, and when the queue ends
empty the outputs equal the enqueued sequence outright — for every element
type `T`. -/
theorem C1_fifo_order (T : Type) [Inhabited T] (size : Nat) (ops : List (Op T))
    (outs : List T) (qf : Queue T) (hsize : size + 1 < U64)
    (hrun : runOps (New T size) ops = some (outs, qf)) :
    enqs ops = outs ++ model qf ∧ (model qf = [] → outs = enqs ops) := by
  have hinv : Inv (New T size) := Inv.new T size hsize
  obtain ⟨hf, hm⟩ := runOps_model ops (New T size) outs qf hinv hrun
  have hm0 : model (New T size) = [] := by
    unfold model
    apply modelSeg_nil
    simp [cnt, New]
  rw [hm0] at hm
  simp only [List.nil_append] at hm
  refine ⟨hm, fun he => ?_⟩
  rw [hm, he, List.append_nil]

theorem C1_fifo_order_witness :
    enqs [Op.push 5, Op.pop] = [5] ++ model (⟨[5, 0], 1, 1, 1, 0⟩ : Queue Nat) ∧
      (model (⟨[5, 0], 1, 1, 1, 0⟩ : Queue Nat) = [] →
        [5] = enqs [Op.push 5, Op.pop]) :=
  C1_fifo_order Nat 1 [Op.push 5, Op.pop] [5] ⟨[5, 0], 1, 1, 1, 0⟩
    (by decide) (by decide)

/-- C2: on every reachable state, `Len` returns exactly the logical count —
`wIdx - rIdx` when `wIdx ≥ rIdx`, otherwise `(capacity+1) - (rIdx - wIdx)`
(the backing store has `capacity + 1` slots) — and that value lies in
`[0, capacity]`: `Len q + 1 ≤ capacity + 1` (non-negativity is inherent in
the `Nat` result). -/
theorem C2_len_formula (T : Type) [Inhabited T] (q : Queue T)
    (h : Reachable T q) :
    Len q = (if q.rIdx ≤ q.wIdx then q.wIdx - q.rIdx
             else q.items.length - (q.rIdx - q.wIdx)) ∧
      Len q + 1 ≤ q.items.length := by
  have hq := reachable_inv h
  have hr := hq.hr
  have hw := hq.hw
  have hpos := hq.hpos
  have hmax := hq.hmax
  unfold U64 at hmax
  constructor
  · unfold Len U64
    split_ifs <;> omega
  · unfold Len U64
    split_ifs <;> omega

theorem C2_len_formula_witness :
    Len (⟨[5, 0, 0], 0, 0, 1, 0⟩ : Queue Nat) =
      (if (⟨[5, 0, 0], 0, 0, 1, 0⟩ : Queue Nat).rIdx ≤
          (⟨[5, 0, 0], 0, 0, 1, 0⟩ : Queue Nat).wIdx
       then (⟨[5, 0, 0], 0, 0, 1, 0⟩ : Queue Nat).wIdx -
          (⟨[5, 0, 0], 0, 0, 1, 0⟩ : Queue Nat).rIdx
       else (⟨[5, 0, 0], 0, 0, 1, 0⟩ : Queue Nat).items.length -
          ((⟨[5, 0, 0], 0, 0, 1, 0⟩ : Queue Nat).rIdx -
           (⟨[5, 0, 0], 0, 0, 1, 0⟩ : Queue Nat).wIdx)) ∧
      Len (⟨[5, 0, 0], 0, 0, 1, 0⟩ : Queue Nat) + 1 ≤
        (⟨[5, 0, 0], 0, 0, 1, 0⟩ : Queue Nat).items.length :=
  C2_len_formula Nat ⟨[5, 0, 0], 0, 0, 1, 0⟩
    (Reachable.offer 5 true (Reachable.new 2 (by decide)) (by decide))

/-- C3: on every reachable state, `Offer` and `Reserve` return the failure
indicator `false` exactly when the queue is full, `(wIdx + 1) mod
(capacity+1) = rIdx`, and `Front` returns `false` exactly when the queue is
empty, `rIdx = wIdx`: the possibly-stale cached peer index never produces a
wrong outcome because it is refreshed from the authoritative index before
the operation fails. -/
theorem C3_failure_iff (T : Type) [Inhabited T] (q : Queue T) (v : T)
    (h : Reachable T q) :
    ((∃ q', Offer q v = Outcome.ok (false, q')) ↔
        (q.wIdx + 1) % q.items.length = q.rIdx) ∧
    ((∃ r q', Reserve q = Outcome.ok ((r, false), q')) ↔
        (q.wIdx + 1) % q.items.length = q.rIdx) ∧
    ((∃ r q', Front q = Outcome.ok ((r, false), q')) ↔ q.rIdx = q.wIdx) := by
  have hq := reachable_inv h
  have hmod : wrapNext q.wIdx q.items.length = (q.wIdx + 1) % q.items.length :=
    wrapNext_eq_mod hq.hw hq.hmax
  rw [← hmod]
  refine ⟨⟨?_, ?_⟩, ⟨?_, ?_⟩, ⟨?_, ?_⟩⟩
  · rintro ⟨q', hO⟩
    rcases Offer_ok_elim hO with ⟨_, _, hfull, _⟩ | ⟨hb, _⟩
    · exact hfull
    · cases hb
  · intro hfull
    exact ⟨q, Offer_intro_full hq v hfull⟩
  · rintro ⟨r, q', hR⟩
    rcases Reserve_ok_elim hR with ⟨_, _, hfull, _, _⟩ | ⟨hb, _⟩
    · exact hfull
    · cases hb
  · intro hfull
    exact ⟨default, q, Reserve_intro_full hq hfull⟩
  · rintro ⟨r, q', hF⟩
    rcases Front_ok_elim hF with ⟨_, _, hempty, _, _⟩ | ⟨hb, _⟩
    · exact hempty
    · cases hb
  · intro hempty
    exact ⟨default, q, Front_intro_empty hq hempty⟩

theorem C3_failure_iff_witness :
    ((∃ q', Offer (⟨[5, 0, 0], 0, 0, 1, 0⟩ : Queue Nat) 9 = Outcome.ok (false, q')) ↔
        ((⟨[5, 0, 0], 0, 0, 1, 0⟩ : Queue Nat).wIdx + 1) %
          (⟨[5, 0, 0], 0, 0, 1, 0⟩ : Queue Nat).items.length =
          (⟨[5, 0, 0], 0, 0, 1, 0⟩ : Queue Nat).rIdx) ∧
    ((∃ r q', Reserve (⟨[5, 0, 0], 0, 0, 1, 0⟩ : Queue Nat) =
          Outcome.ok ((r, false), q')) ↔
        ((⟨[5, 0, 0], 0, 0, 1, 0⟩ : Queue Nat).wIdx + 1) %
          (⟨[5, 0, 0], 0, 0, 1, 0⟩ : Queue Nat).items.length =
          (⟨[5, 0, 0], 0, 0, 1, 0⟩ : Queue Nat).rIdx) ∧
    ((∃ r q', Front (⟨[5, 0, 0], 0, 0, 1, 0⟩ : Queue Nat) =
          Outcome.ok ((r, false), q')) ↔
        (⟨[5, 0, 0], 0, 0, 1, 0⟩ : Queue Nat).rIdx =
          (⟨[5, 0, 0], 0, 0, 1, 0⟩ : Queue Nat).wIdx) :=
  C3_failure_iff Nat ⟨[5, 0, 0], 0, 0, 1, 0⟩ 9
    (Reachable.offer 5 true (Reachable.new 2 (by decide)) (by decide))

/-- C4: from every state on which `Reserve` succeeds, writing `v` into the
reserved slot (the one at the current write index) and then calling `Commit`
produces exactly the state `Push v` would have produced, so every subsequent
dequeue result is identical. -/
theorem C4_reserve_commit_push (T : Type) [Inhabited T] (q q1 : Queue T)
    (w0 v : T) (hres : Reserve q = Outcome.ok ((w0, true), q1)) :
    ∃ l q2, setItem q1.items q1.wIdx v = some l ∧
      Push q v = Outcome.ok q2 ∧ Commit { q1 with items := l } = q2 := by
  rcases Reserve_ok_elim hres with ⟨hb, _⟩ | ⟨_, hget, hcase⟩
  · cases hb
  have hlt : q.wIdx < q.items.length := getItem_lt hget
  have hs : setItem q.items q.wIdx v = some (q.items.set q.wIdx v) :=
    setItem_eq_some.mpr ⟨hlt, rfl⟩
  rcases hcase with ⟨hne, hq1⟩ | ⟨hg, hne, rfl⟩
  · rw [hq1]
    refine ⟨q.items.set q.wIdx v,
      { q with items := q.items.set q.wIdx v,
               wIdx := wrapNext q.wIdx q.items.length },
      hs, ?_, ?_⟩
    · unfold Push
      rw [if_neg hne, hs]
    · simp only [Commit, List.length_set]
  · refine ⟨q.items.set q.wIdx v,
      { q with rIdxCached := q.rIdx, items := q.items.set q.wIdx v,
               wIdx := wrapNext q.wIdx q.items.length },
      hs, ?_, ?_⟩
    · unfold Push
      rw [if_pos hg, if_neg hne, hs]
    · simp only [Commit, List.length_set]

theorem C4_reserve_commit_push_witness :
    ∃ l q2, setItem (⟨[5, 0, 0], 0, 0, 1, 0⟩ : Queue Nat).items
        (⟨[5, 0, 0], 0, 0, 1, 0⟩ : Queue Nat).wIdx 9 = some l ∧
      Push (⟨[5, 0, 0], 0, 0, 1, 0⟩ : Queue Nat) 9 = Outcome.ok q2 ∧
      Commit { (⟨[5, 0, 0], 0, 0, 1, 0⟩ : Queue Nat) with items := l } = q2 :=
  C4_reserve_commit_push Nat ⟨[5, 0, 0], 0, 0, 1, 0⟩ ⟨[5, 0, 0], 0, 0, 1, 0⟩
    0 9 (by decide)

/-- C5: on every state on which `Front` succeeds, following it with `Advance`
returns the same value and produces exactly the same resulting state as a
single `Pop` call on the same state; consequently any sequence of successful
`Front`-then-`Advance` pairs yields the same value sequence as the same
number of `Pop` calls on an identically-seeded buffer. -/
theorem C5_front_advance_pop (T : Type) [Inhabited T] (q q1 : Queue T) (v : T)
    (h : Front q = Outcome.ok ((v, true), q1)) :
    Pop q = Outcome.ok (v, Advance q1) := by
  rcases Front_ok_elim h with ⟨hb, _⟩ | ⟨_, hget, hcase⟩
  · cases hb
  rcases hcase with ⟨hne, hq1⟩ | ⟨hg, hne, rfl⟩
  · rw [hq1]
    unfold Pop
    rw [if_neg hne, hget]
  · unfold Pop
    rw [if_pos hg, if_neg hne, hget]

theorem C5_front_advance_pop_witness :
    Pop (⟨[5, 0, 0], 0, 0, 1, 0⟩ : Queue Nat) =
      Outcome.ok (5, Advance (⟨[5, 0, 0], 0, 1, 1, 0⟩ : Queue Nat)) :=
  C5_front_advance_pop Nat ⟨[5, 0, 0], 0, 0, 1, 0⟩ ⟨[5, 0, 0], 0, 1, 1, 0⟩ 5
    (by decide)

/-- C6: on every state whose indices satisfy the bounds invariant `0 ≤ rIdx
< capacity+1` and `0 ≤ wIdx < capacity+1` (as `New(capacity)` produces),
every operation preserves it: whichever of `Push`, `Offer`, `Reserve`, `Pop`
or `Front` completes yields a state whose indices are again within the
`capacity+1`-slot backing store (a blocking or panicking call produces no
new state), and the unconditional `Commit` and `Advance` updates wrap modulo
the store length as well.  The lower bounds are inherent in the `Nat` index
type, and `Len` performs no state update at all (its embedding returns only
a number). -/
theorem C6_index_bounds (T : Type) [Inhabited T] (q : Queue T) (h : idxOK q) :
    (∀ (v : T) (qp : Queue T), Push q v = Outcome.ok qp → idxOK qp) ∧
    (∀ (v : T) (b : Bool) (qo : Queue T),
      Offer q v = Outcome.ok (b, qo) → idxOK qo) ∧
    (∀ (r : T × Bool) (qres : Queue T),
      Reserve q = Outcome.ok (r, qres) → idxOK qres) ∧
    (∀ (w : T) (qq : Queue T), Pop q = Outcome.ok (w, qq) → idxOK qq) ∧
    (∀ (r : T × Bool) (qf : Queue T),
      Front q = Outcome.ok (r, qf) → idxOK qf) ∧
    idxOK (Commit q) ∧ idxOK (Advance q) := by
  obtain ⟨hpos, hmax, hr, hw⟩ := h
  have hwn : wrapNext q.wIdx q.items.length < q.items.length := wrapNext_lt hw hmax
  have hrn : wrapNext q.rIdx q.items.length < q.items.length := wrapNext_lt hr hmax
  refine ⟨?_, ?_, ?_, ?_, ?_, ?_, ?_⟩
  · intro v qp hp
    obtain ⟨_, hit, hri, hwi, _, _⟩ := Push_ok_elim hp
    refine ⟨?_, ?_, ?_, ?_⟩
    · rw [hit, List.length_set]
      exact hpos
    · rw [hit, List.length_set]
      exact hmax
    · rw [hit, List.length_set, hri]
      exact hr
    · rw [hit, List.length_set, hwi]
      exact hwn
  · intro v b qo ho
    rcases Offer_ok_elim ho with ⟨_, _, _, rfl⟩ | ⟨_, _, hit, hri, hwi, _, _⟩
    · exact ⟨hpos, hmax, hr, hw⟩
    · refine ⟨?_, ?_, ?_, ?_⟩
      · rw [hit, List.length_set]
        exact hpos
      · rw [hit, List.length_set]
        exact hmax
      · rw [hit, List.length_set, hri]
        exact hr
      · rw [hit, List.length_set, hwi]
        exact hwn
  · intro r qres hres
    obtain ⟨v0, b0⟩ := r
    rcases Reserve_ok_elim hres with ⟨_, _, _, rfl, _⟩ | ⟨_, _, ⟨_, rfl⟩ | ⟨_, _, rfl⟩⟩
    · exact ⟨hpos, hmax, hr, hw⟩
    · exact ⟨hpos, hmax, hr, hw⟩
    · exact ⟨hpos, hmax, hr, hw⟩
  · intro w qq hpop
    obtain ⟨hget, hcase⟩ := Pop_ok_elim hpop
    rcases hcase with ⟨_, rfl⟩ | ⟨_, _, rfl⟩
    · exact ⟨hpos, hmax, hrn, hw⟩
    · exact ⟨hpos, hmax, hrn, hw⟩
  · intro r qf hf
    obtain ⟨v0, b0⟩ := r
    rcases Front_ok_elim hf with ⟨_, _, _, rfl, _⟩ | ⟨_, _, ⟨_, rfl⟩ | ⟨_, _, rfl⟩⟩
    · exact ⟨hpos, hmax, hr, hw⟩
    · exact ⟨hpos, hmax, hr, hw⟩
    · exact ⟨hpos, hmax, hr, hw⟩
  · exact ⟨hpos, hmax, hr, hwn⟩
  · exact ⟨hpos, hmax, hrn, hw⟩

theorem C6_index_bounds_witness :
    idxOK (⟨[5, 7, 0], 0, 0, 2, 0⟩ : Queue Nat) ∧
      idxOK (⟨[5, 0, 0], 1, 1, 1, 0⟩ : Queue Nat) ∧
      idxOK (Commit (⟨[5, 0, 0], 0, 0, 1, 0⟩ : Queue Nat)) ∧
      idxOK (Advance (⟨[5, 0, 0], 0, 0, 1, 0⟩ : Queue Nat)) :=
  ⟨(C6_index_bounds Nat ⟨[5, 0, 0], 0, 0, 1, 0⟩
      ⟨by decide, by decide, by decide, by decide⟩).1
      7 ⟨[5, 7, 0], 0, 0, 2, 0⟩ (by decide),
   (C6_index_bounds Nat ⟨[5, 0, 0], 0, 0, 1, 0⟩
      ⟨by decide, by decide, by decide, by decide⟩).2.2.2.1
      5 ⟨[5, 0, 0], 1, 1, 1, 0⟩ (by decide),
   (C6_index_bounds Nat ⟨[5, 0, 0], 0, 0, 1, 0⟩
      ⟨by decide, by decide, by decide, by decide⟩).2.2.2.2.2.1,
   (C6_index_bounds Nat ⟨[5, 0, 0], 0, 0, 1, 0⟩
      ⟨by decide, by decide, by decide, by decide⟩).2.2.2.2.2.2⟩

/-- C7: whenever `Offer` returns `false` the call has no partial effects —
the resulting state (storage, `wIdx`, `rIdx`, and both cached indices) is
exactly the state before the call — and `Offer` returns `true` exactly when
it has written the value into the current write-index slot and published the
advanced (wrapped) write index, leaving `rIdx` and the consumer cache
untouched. -/
theorem C7_offer_no_partial_effects (T : Type) [Inhabited T] (q q' : Queue T)
    (v : T) (b : Bool) (h : Offer q v = Outcome.ok (b, q')) :
    (b = false → q' = q) ∧
    (b = true → q.wIdx < q.items.length ∧ q'.items = q.items.set q.wIdx v ∧
      q'.wIdx = wrapNext q.wIdx q.items.length ∧ q'.rIdx = q.rIdx ∧
      q'.wIdxCached = q.wIdxCached) := by
  rcases Offer_ok_elim h with ⟨hb, _, _, hq'⟩ | ⟨hb, hlt, hit, hri, hwi, hwc, _⟩
  · subst hb
    exact ⟨fun _ => hq', fun hc => absurd hc (by decide)⟩
  · subst hb
    exact ⟨fun hc => absurd hc (by decide), fun _ => ⟨hlt, hit, hwi, hri, hwc⟩⟩

theorem C7_offer_no_partial_effects_witness :
    (true = false → (⟨[5, 7, 0], 0, 0, 2, 0⟩ : Queue Nat) = ⟨[5, 0, 0], 0, 0, 1, 0⟩) ∧
    (true = true → (⟨[5, 0, 0], 0, 0, 1, 0⟩ : Queue Nat).wIdx <
        (⟨[5, 0, 0], 0, 0, 1, 0⟩ : Queue Nat).items.length ∧
      (⟨[5, 7, 0], 0, 0, 2, 0⟩ : Queue Nat).items =
        (⟨[5, 0, 0], 0, 0, 1, 0⟩ : Queue Nat).items.set
          (⟨[5, 0, 0], 0, 0, 1, 0⟩ : Queue Nat).wIdx 7 ∧
      (⟨[5, 7, 0], 0, 0, 2, 0⟩ : Queue Nat).wIdx =
        wrapNext (⟨[5, 0, 0], 0, 0, 1, 0⟩ : Queue Nat).wIdx
          (⟨[5, 0, 0], 0, 0, 1, 0⟩ : Queue Nat).items.length ∧
      (⟨[5, 7, 0], 0, 0, 2, 0⟩ : Queue Nat).rIdx =
        (⟨[5, 0, 0], 0, 0, 1, 0⟩ : Queue Nat).rIdx ∧
      (⟨[5, 7, 0], 0, 0, 2, 0⟩ : Queue Nat).wIdxCached =
        (⟨[5, 0, 0], 0, 0, 1, 0⟩ : Queue Nat).wIdxCached) :=
  C7_offer_no_partial_effects Nat ⟨[5, 0, 0], 0, 0, 1, 0⟩ ⟨[5, 7, 0], 0, 0, 2, 0⟩
    7 true (by decide)

/-- C8: on every queue state, whenever `Front` succeeds it leaves `rIdx`,
`wIdx`, the storage and the producer cache unchanged and calling `Front`
again without an intervening `Advance` returns the identical value and
state; independently, whenever `Reserve` succeeds it leaves `wIdx`, `rIdx`,
the storage and the consumer cache unchanged and calling `Reserve` again
without an intervening `Commit` returns the element of the identical slot —
neither peek advances an authoritative index.  Each property assumes only
its own peek's success, so it covers every state on which that peek returns
a value, including full queues for `Front` and empty queues for `Reserve`. -/
theorem C8_idempotent_peek (T : Type) [Inhabited T] (q : Queue T) :
    (∀ (v : T) (q1 : Queue T), Front q = Outcome.ok ((v, true), q1) →
      Front q1 = Outcome.ok ((v, true), q1) ∧ q1.rIdx = q.rIdx ∧
      q1.wIdx = q.wIdx ∧ q1.items = q.items ∧ q1.rIdxCached = q.rIdxCached) ∧
    (∀ (w0 : T) (q2 : Queue T), Reserve q = Outcome.ok ((w0, true), q2) →
      Reserve q2 = Outcome.ok ((w0, true), q2) ∧ q2.wIdx = q.wIdx ∧
      q2.rIdx = q.rIdx ∧ q2.items = q.items ∧ q2.wIdxCached = q.wIdxCached) := by
  constructor
  · intro v q1 hf
    rcases Front_ok_elim hf with ⟨hb, _⟩ | ⟨_, hget, hcase⟩
    · cases hb
    rcases hcase with ⟨hne, hq1⟩ | ⟨hg, hne, rfl⟩
    · rw [hq1] at hf ⊢
      exact ⟨hf, rfl, rfl, rfl, rfl⟩
    · exact ⟨Front_intro_fast hne hget, rfl, rfl, rfl, rfl⟩
  · intro w0 q2 hres
    rcases Reserve_ok_elim hres with ⟨hb, _⟩ | ⟨_, hget, hcase⟩
    · cases hb
    rcases hcase with ⟨hne, hq2⟩ | ⟨hg, hne, rfl⟩
    · rw [hq2] at hres ⊢
      exact ⟨hres, rfl, rfl, rfl, rfl⟩
    · exact ⟨Reserve_intro_fast hne hget, rfl, rfl, rfl, rfl⟩

theorem C8_idempotent_peek_witness :
    (Front (⟨[5, 0, 0], 0, 1, 1, 0⟩ : Queue Nat) =
        Outcome.ok ((5, true), ⟨[5, 0, 0], 0, 1, 1, 0⟩) ∧
      (⟨[5, 0, 0], 0, 1, 1, 0⟩ : Queue Nat).rIdx =
        (⟨[5, 0, 0], 0, 0, 1, 0⟩ : Queue Nat).rIdx ∧
      (⟨[5, 0, 0], 0, 1, 1, 0⟩ : Queue Nat).wIdx =
        (⟨[5, 0, 0], 0, 0, 1, 0⟩ : Queue Nat).wIdx ∧
      (⟨[5, 0, 0], 0, 1, 1, 0⟩ : Queue Nat).items =
        (⟨[5, 0, 0], 0, 0, 1, 0⟩ : Queue Nat).items ∧
      (⟨[5, 0, 0], 0, 1, 1, 0⟩ : Queue Nat).rIdxCached =
        (⟨[5, 0, 0], 0, 0, 1, 0⟩ : Queue Nat).rIdxCached) ∧
    (Reserve (⟨[5, 0, 0], 0, 0, 1, 0⟩ : Queue Nat) =
        Outcome.ok ((0, true), ⟨[5, 0, 0], 0, 0, 1, 0⟩) ∧
      (⟨[5, 0, 0], 0, 0, 1, 0⟩ : Queue Nat).wIdx =
        (⟨[5, 0, 0], 0, 0, 1, 0⟩ : Queue Nat).wIdx ∧
      (⟨[5, 0, 0], 0, 0, 1, 0⟩ : Queue Nat).rIdx =
        (⟨[5, 0, 0], 0, 0, 1, 0⟩ : Queue Nat).rIdx ∧
      (⟨[5, 0, 0], 0, 0, 1, 0⟩ : Queue Nat).items =
        (⟨[5, 0, 0], 0, 0, 1, 0⟩ : Queue Nat).items ∧
      (⟨[5, 0, 0], 0, 0, 1, 0⟩ : Queue Nat).wIdxCached =
        (⟨[5, 0, 0], 0, 0, 1, 0⟩ : Queue Nat).wIdxCached) :=
  ⟨(C8_idempotent_peek Nat ⟨[5, 0, 0], 0, 0, 1, 0⟩).1
      5 ⟨[5, 0, 0], 0, 1, 1, 0⟩ (by decide),
   (C8_idempotent_peek Nat ⟨[5, 0, 0], 0, 0, 1, 0⟩).2
      0 ⟨[5, 0, 0], 0, 0, 1, 0⟩ (by decide)⟩

/-- C9: `New(capacity)` allocates a backing store of exactly `capacity + 1`
slots, and the queue built with capacity 0 is permanently both empty and
full: after any sequence of non-blocking operations its state is still the
initial state, on which `Offer` and `Reserve` return `false`, `Front`
returns the zero value with `false`, and `Len` returns 0. -/
theorem C9_new_size_and_zero_capacity (T : Type) [Inhabited T] (size : Nat)
    (hs : size + 1 < U64) (ops : List (NBOp T)) (v : T) :
    (New T size).items.length = size + 1 ∧
    nbRun (New T 0) ops = New T 0 ∧
    Offer (nbRun (New T 0) ops) v = Outcome.ok (false, New T 0) ∧
    Reserve (nbRun (New T 0) ops) = Outcome.ok ((default, false), New T 0) ∧
    Front (nbRun (New T 0) ops) = Outcome.ok ((default, false), New T 0) ∧
    Len (nbRun (New T 0) ops) = 0 := by
  refine ⟨?_, nbRun_new0 ops, ?_, ?_, ?_, ?_⟩
  · show (List.replicate ((size + 1) % U64) (default : T)).length = size + 1
    rw [List.length_replicate, Nat.mod_eq_of_lt hs]
  · rw [nbRun_new0]
    exact offer_new0 v
  · rw [nbRun_new0]
    exact reserve_new0
  · rw [nbRun_new0]
    exact front_new0
  · rw [nbRun_new0]
    exact len_new0

theorem C9_new_size_and_zero_capacity_witness :
    (New Nat 3).items.length = 3 + 1 ∧
    nbRun (New Nat 0) [NBOp.offer 4, NBOp.commit] = New Nat 0 ∧
    Offer (nbRun (New Nat 0) [NBOp.offer 4, NBOp.commit]) 2 =
      Outcome.ok (false, New Nat 0) ∧
    Reserve (nbRun (New Nat 0) [NBOp.offer 4, NBOp.commit]) =
      Outcome.ok ((default, false), New Nat 0) ∧
    Front (nbRun (New Nat 0) [NBOp.offer 4, NBOp.commit]) =
      Outcome.ok ((default, false), New Nat 0) ∧
    Len (nbRun (New Nat 0) [NBOp.offer 4, NBOp.commit]) = 0 :=
  C9_new_size_and_zero_capacity Nat 3 (by decide) [NBOp.offer 4, NBOp.commit] 2

/-- C10: calling `New` with the maximum `uint` value makes `size + 1`
overflow to 0, so the backing slice has zero slots; `Push`, `Offer` and
`Reserve` on that queue skip the wrap check (the candidate next index 1 is
compared against the slice length 0) and index slot 0 of the empty slice —
an out-of-bounds access, i.e. a runtime panic, at the public interface. -/
theorem C10_uint_overflow_panics (T : Type) [Inhabited T] (v : T) :
    (New T (U64 - 1)).items.length = 0 ∧
    Push (New T (U64 - 1)) v = Outcome.panic ∧
    Offer (New T (U64 - 1)) v = Outcome.panic ∧
    Reserve (New T (U64 - 1)) = Outcome.panic :=
  ⟨rfl, rfl, rfl, rfl⟩

theorem C10_uint_overflow_panics_witness :
    (New Nat (U64 - 1)).items.length = 0 ∧
    Push (New Nat (U64 - 1)) 7 = Outcome.panic ∧
    Offer (New Nat (U64 - 1)) 7 = Outcome.panic ∧
    Reserve (New Nat (U64 - 1)) = Outcome.panic :=
  C10_uint_overflow_panics Nat 7

end Spscqueue
